import Mathlib

/-!
Verification of the sub-linear Fibonacci algorithms of `fast_fib_rs`.

The definitions below are shallow embeddings of the Rust source:
`repeated_squaring.rs` (the generic exponentiation engine),
`mat_exponentiator.rs` (2x2 matrix carrier and algorithm),
`binet_z5.rs` (field-extension carrier `Z5` and algorithm),
`cassini.rs` and `cassini_gmp.rs` (the two doubling-recurrence loops).
Arbitrary-precision `rug::Integer` values are modelled as `Int`; the
in-place arithmetic right shift `>>= 1` is floor division by two
(`Int.fdiv _ 2`).
-/

/-! ### Binary digits of a `u64` exponent

The Rust code formats the exponent in binary, most significant digit
first with no leading zeros, and iterates the characters in reverse, so it
walks the digits least significant first.  `natBits n` is that reversed (little-endian)
digit list.  A fuel parameter keeps the recursion structural so that the
kernel can evaluate it.
-/

def natBitsAux : Nat → Nat → List Bool
  | 0, _ => []
  | fuel + 1, n => if n = 0 then [] else (n % 2 == 1) :: natBitsAux fuel (n / 2)

def natBits (n : Nat) : List Bool := natBitsAux n n

def bitVal (b : Bool) : Nat := if b then 1 else 0

def bitsVal : List Bool → Nat
  | [] => 0
  | b :: bs => bitVal b + 2 * bitsVal bs

/-! ### The exponentiation engine (`repeated_squaring.rs`, `power`) -/

def powerAux {T : Type} (mul : T → T → T) : List Bool → T → T → T
  | [], _, prod => prod
  | b :: bs, p, prod => powerAux mul bs (mul p p) (if b then mul prod p else prod)

def power {T : Type} (mul : T → T → T) (base : T) (exp : Nat) (ident : T) : T :=
  if exp = 0 then ident else powerAux mul (natBits exp) base ident

/-! ### Fibonacci and Lucas numbers (the convention of the specification) -/

def fibSpec : Nat → Nat
  | 0 => 0
  | 1 => 1
  | n + 2 => fibSpec n + fibSpec (n + 1)

def lucas : Nat → Nat
  | 0 => 2
  | 1 => 1
  | n + 2 => lucas n + lucas (n + 1)

def fibI (n : Nat) : Int := (fibSpec n : Int)

def lucasI (n : Nat) : Int := (lucas n : Int)

/-! ### Basic facts about the bit decomposition -/

lemma natBitsAux_zero : ∀ f, natBitsAux f 0 = [] := by
  intro f
  cases f <;> simp [natBitsAux]

lemma bitVal_mod_two (n : Nat) : bitVal (n % 2 == 1) = n % 2 := by
  rcases Nat.mod_two_eq_zero_or_one n with h | h <;> simp [bitVal, h]

lemma bitsVal_natBitsAux : ∀ f n, n ≤ f → bitsVal (natBitsAux f n) = n := by
  intro f
  induction f with
  | zero =>
    intro n h
    simp [natBitsAux, bitsVal]
    omega
  | succ f ih =>
    intro n h
    by_cases h0 : n = 0
    · subst h0
      simp [natBitsAux, bitsVal]
    · simp only [natBitsAux, if_neg h0, bitsVal]
      rw [ih (n / 2) (by omega), bitVal_mod_two]
      omega

lemma bitsVal_natBits (n : Nat) : bitsVal (natBits n) = n :=
  bitsVal_natBitsAux n n le_rfl

lemma natBitsAux_msb : ∀ f n, 1 ≤ n → n ≤ f → ∃ l, natBitsAux f n = l ++ [true] := by
  intro f
  induction f with
  | zero => intro n h1 h2; omega
  | succ f ih =>
    intro n h1 h2
    by_cases hone : n = 1
    · subst hone
      refine ⟨[], ?_⟩
      simp [natBitsAux, natBitsAux_zero]
    · obtain ⟨l, hl⟩ := ih (n / 2) (by omega) (by omega)
      refine ⟨(n % 2 == 1) :: l, ?_⟩
      simp only [natBitsAux, if_neg (by omega : ¬ n = 0), hl, List.cons_append]

lemma natBits_msb (n : Nat) (h : 1 ≤ n) : ∃ l, natBits n = l ++ [true] :=
  natBitsAux_msb n n h le_rfl

lemma bitsVal_append : ∀ xs ys : List Bool,
    bitsVal (xs ++ ys) = bitsVal xs + 2 ^ xs.length * bitsVal ys := by
  intro xs ys
  induction xs with
  | nil => simp [bitsVal]
  | cons b xs ih =>
    show bitVal b + 2 * bitsVal (xs ++ ys) = bitVal b + 2 * bitsVal xs + 2 ^ (xs.length + 1) * bitsVal ys
    rw [ih]
    ring

/-! ### Reconstructing the index from most-significant-first bits

Both doubling loops walk the bits of `n` most significant first (after the
leading one) while maintaining an index `i` that becomes `2*i` on a `0` bit
and `2*i + 1` on a `1` bit.
-/

def idxStep (i : Nat) (b : Bool) : Nat := 2 * i + bitVal b

lemma foldl_idxStep_reverse : ∀ (l : List Bool) (i : Nat),
    List.foldl idxStep i l.reverse = i * 2 ^ l.length + bitsVal l := by
  intro l
  induction l with
  | nil => intro i; simp [bitsVal]
  | cons b l ih =>
    intro i
    simp only [List.reverse_cons, List.foldl_append, List.foldl_cons, List.foldl_nil,
      ih, idxStep, bitsVal, List.length_cons]
    ring

def tailBits (n : Nat) : List Bool := ((natBits n).reverse).drop 1

lemma tailBits_foldl (n : Nat) (h : 1 ≤ n) : List.foldl idxStep 1 (tailBits n) = n := by
  obtain ⟨l, hl⟩ := natBits_msb n h
  have hv : bitsVal (natBits n) = n := bitsVal_natBits n
  rw [hl, bitsVal_append] at hv
  norm_num [bitsVal, bitVal] at hv
  unfold tailBits
  rw [hl]
  simp only [List.reverse_append, List.reverse_singleton, List.singleton_append,
    List.drop_succ_cons, List.drop_zero]
  rw [foldl_idxStep_reverse]
  omega

/-! ### Arithmetic identities for Fibonacci and Lucas numbers -/

lemma fibSpec_eq_fib : ∀ n, fibSpec n = Nat.fib n := by
  intro n
  induction n using Nat.strong_induction_on with
  | _ n ih =>
    match n with
    | 0 => rfl
    | 1 => rfl
    | m + 2 =>
      show fibSpec m + fibSpec (m + 1) = Nat.fib (m + 2)
      rw [ih m (by omega), ih (m + 1) (by omega), Nat.fib_add_two]

lemma fibI_add_two (n : Nat) : fibI (n + 2) = fibI n + fibI (n + 1) := by
  unfold fibI
  show ((fibSpec n + fibSpec (n + 1) : Nat) : Int) = _
  push_cast
  ring

lemma lucasI_add_two (n : Nat) : lucasI (n + 2) = lucasI n + lucasI (n + 1) := by
  unfold lucasI
  show ((lucas n + lucas (n + 1) : Nat) : Int) = _
  push_cast
  ring

lemma fib_addI (j k : Nat) : fibI (j + k + 1) = fibI j * fibI k + fibI (j + 1) * fibI (k + 1) := by
  have h := Nat.fib_add j k
  simp only [fibI, fibSpec_eq_fib]
  exact_mod_cast congrArg (fun t : Nat => (t : Int)) h

lemma fib_addI2 (j k : Nat) :
    fibI (j + k) = fibI (j + 1) * fibI k + fibI j * fibI (k + 1) - fibI j * fibI k := by
  cases k with
  | zero =>
    simp [fibI, fibSpec]
  | succ c =>
    have h1 := fib_addI j c
    have h2 := fibI_add_two c
    have e : j + (c + 1) = j + c + 1 := by omega
    rw [e, show c + 1 + 1 = c + 2 from by omega]
    linear_combination h1 - fibI j * h2

lemma cassiniI : ∀ m, fibI m * fibI (m + 2) - fibI (m + 1) ^ 2 = (-1 : Int) ^ (m + 1) := by
  intro m
  induction m with
  | zero =>
    show fibI 0 * fibI 2 - fibI 1 ^ 2 = -1
    norm_num [fibI, fibSpec]
  | succ k ih =>
    have h2 := fibI_add_two k
    have h3 := fibI_add_two (k + 1)
    have e2 : k + 1 + 2 = k + 3 := by omega
    have e3 : k + 1 + 1 = k + 2 := by omega
    rw [e2, e3]
    rw [show k + 1 + 2 = k + 3 from by omega] at h3
    linear_combination (-1 : Int) * ih + (- fibI (k + 2)) * h2 + fibI (k + 1) * h3

lemma fibI_two_mul_add_two (m : Nat) :
    fibI (2 * m + 2) = 2 * fibI (m + 1) * fibI (m + 2) - fibI (m + 1) ^ 2 := by
  have h := fib_addI m (m + 1)
  have h2 := fibI_add_two m
  rw [show m + (m + 1) + 1 = 2 * m + 2 from by omega] at h
  rw [show m + 1 + 1 = m + 2 from by omega] at h
  linear_combination h - fibI (m + 1) * h2

lemma fibI_two_mul_add_three (m : Nat) :
    fibI (2 * m + 3) = fibI (m + 1) ^ 2 + fibI (m + 2) ^ 2 := by
  have h := fib_addI (m + 1) (m + 1)
  rw [show m + 1 + (m + 1) + 1 = 2 * m + 3 from by omega] at h
  rw [show m + 1 + 1 = m + 2 from by omega] at h
  linear_combination h

lemma fibI_two_mul_add_four (m : Nat) :
    fibI (2 * m + 4) = 2 * fibI (m + 1) * fibI (m + 2) + fibI (m + 2) ^ 2 := by
  have h := fib_addI (m + 1) (m + 2)
  rw [show m + 1 + (m + 2) + 1 = 2 * m + 4 from by omega] at h
  rw [show m + 1 + 1 = m + 2 from by omega] at h
  rw [show m + 2 + 1 = m + 3 from by omega] at h
  have h3 := fibI_add_two (m + 1)
  rw [show m + 1 + 2 = m + 3 from by omega] at h3
  rw [show m + 1 + 1 = m + 2 from by omega] at h3
  linear_combination h + fibI (m + 2) * h3

lemma fibI_two_mul_add_one (m : Nat) :
    fibI (2 * m + 1) = fibI m ^ 2 + fibI (m + 1) ^ 2 := by
  have h := fib_addI m m
  rw [show m + m + 1 = 2 * m + 1 from by omega] at h
  linear_combination h

lemma fibI_gmp_odd (m : Nat) :
    fibI (2 * m + 3) = 4 * fibI (m + 1) ^ 2 - fibI m ^ 2 + 2 * (-1 : Int) ^ (m + 1) := by
  have h1 := fibI_two_mul_add_three m
  have h2 := cassiniI m
  have h3 := fibI_add_two m
  linear_combination h1 + 2 * h2 + (fibI (m + 2) - fibI m + fibI (m + 1)) * h3

lemma lucas_fib_A : ∀ j, 2 * fibSpec (j + 1) = fibSpec j + lucas j := by
  have key : ∀ j, (2 * fibSpec (j + 1) = fibSpec j + lucas j)
      ∧ (2 * fibSpec (j + 2) = fibSpec (j + 1) + lucas (j + 1)) := by
    intro j
    induction j with
    | zero => exact ⟨rfl, rfl⟩
    | succ k ih =>
      refine ⟨ih.2, ?_⟩
      show 2 * (fibSpec (k + 1) + fibSpec (k + 2)) = fibSpec (k + 2) + (lucas k + lucas (k + 1))
      have h1 := ih.1
      have h2 := ih.2
      have h3 : fibSpec (k + 2) = fibSpec k + fibSpec (k + 1) := rfl
      omega
  exact fun j => (key j).1

lemma lucas_fib_B : ∀ j, 2 * lucas (j + 1) = lucas j + 5 * fibSpec j := by
  have key : ∀ j, (2 * lucas (j + 1) = lucas j + 5 * fibSpec j)
      ∧ (2 * lucas (j + 2) = lucas (j + 1) + 5 * fibSpec (j + 1)) := by
    intro j
    induction j with
    | zero => exact ⟨rfl, rfl⟩
    | succ k ih =>
      refine ⟨ih.2, ?_⟩
      show 2 * (lucas (k + 1) + lucas (k + 2)) = lucas (k + 2) + 5 * (fibSpec k + fibSpec (k + 1))
      have h1 := ih.1
      have h2 := ih.2
      have h3 : lucas (k + 2) = lucas k + lucas (k + 1) := rfl
      omega
  exact fun j => (key j).1

lemma lucas_fib_AI (j : Nat) : 2 * fibI (j + 1) = fibI j + lucasI j := by
  have h := lucas_fib_A j
  unfold fibI lucasI
  exact_mod_cast congrArg (fun t : Nat => (t : Int)) h

lemma lucas_fib_BI (j : Nat) : 2 * lucasI (j + 1) = lucasI j + 5 * fibI j := by
  have h := lucas_fib_B j
  unfold fibI lucasI
  exact_mod_cast congrArg (fun t : Nat => (t : Int)) h

lemma lucas_add : ∀ k j,
    (lucasI j * lucasI k + 5 * (fibI j * fibI k) = 2 * lucasI (j + k))
    ∧ (fibI j * lucasI k + lucasI j * fibI k = 2 * fibI (j + k)) := by
  have key : ∀ k, (∀ j, (lucasI j * lucasI k + 5 * (fibI j * fibI k) = 2 * lucasI (j + k))
        ∧ (fibI j * lucasI k + lucasI j * fibI k = 2 * fibI (j + k)))
      ∧ (∀ j, (lucasI j * lucasI (k + 1) + 5 * (fibI j * fibI (k + 1)) = 2 * lucasI (j + k + 1))
        ∧ (fibI j * lucasI (k + 1) + lucasI j * fibI (k + 1) = 2 * fibI (j + k + 1))) := by
    intro k
    induction k with
    | zero =>
      constructor
      · intro j
        constructor
        · show lucasI j * lucasI 0 + 5 * (fibI j * fibI 0) = 2 * lucasI j
          norm_num [lucasI, fibI, lucas, fibSpec]
          ring
        · show fibI j * lucasI 0 + lucasI j * fibI 0 = 2 * fibI j
          norm_num [lucasI, fibI, lucas, fibSpec]
          ring
      · intro j
        constructor
        · show lucasI j * lucasI 1 + 5 * (fibI j * fibI 1) = 2 * lucasI (j + 1)
          have h := lucas_fib_BI j
          norm_num [show lucasI 1 = 1 from rfl, show fibI 1 = 1 from rfl]
          linear_combination (-1 : Int) * h
        · show fibI j * lucasI 1 + lucasI j * fibI 1 = 2 * fibI (j + 1)
          have h := lucas_fib_AI j
          norm_num [show lucasI 1 = 1 from rfl, show fibI 1 = 1 from rfl]
          linear_combination (-1 : Int) * h
    | succ k ih =>
      refine ⟨ih.2, ?_⟩
      intro j
      have hL := lucasI_add_two k
      have hF := fibI_add_two k
      have hL2 := lucasI_add_two (j + k)
      have hF2 := fibI_add_two (j + k)
      have e1 : j + (k + 1) + 1 = j + k + 2 := by omega
      rw [e1, show k + 1 + 1 = k + 2 from by omega]
      constructor
      · have i1 := (ih.1 j).1
        have i2 := (ih.2 j).1
        linear_combination lucasI j * hL + 5 * fibI j * hF + i1 + i2 - 2 * hL2
      · have i1 := (ih.1 j).2
        have i2 := (ih.2 j).2
        linear_combination fibI j * hL + lucasI j * hF + i1 + i2 - 2 * hF2
  exact fun k j => (key k).1 j

/-! ### The engine computes monoid powers (for any associative carrier) -/

def npowM {T : Type} (mul : T → T → T) (ident base : T) : Nat → T
  | 0 => ident
  | e + 1 => mul (npowM mul ident base e) base

lemma npowM_succ_left {T : Type} (mul : T → T → T) (ident base : T)
    (assoc : ∀ x y z, mul (mul x y) z = mul x (mul y z))
    (idl : ∀ x, mul ident x = x) (idr : ∀ x, mul x ident = x) :
    ∀ e, mul base (npowM mul ident base e) = npowM mul ident base (e + 1) := by
  intro e
  induction e with
  | zero =>
    show mul base ident = mul ident base
    rw [idl, idr]
  | succ e ih =>
    show mul base (mul (npowM mul ident base e) base) = mul (npowM mul ident base (e + 1)) base
    rw [← assoc, ih]

lemma npowM_sq {T : Type} (mul : T → T → T) (ident p : T)
    (assoc : ∀ x y z, mul (mul x y) z = mul x (mul y z)) :
    ∀ k, npowM mul ident (mul p p) k = npowM mul ident p (2 * k) := by
  intro k
  induction k with
  | zero => rfl
  | succ k ih =>
    show mul (npowM mul ident (mul p p) k) (mul p p) = npowM mul ident p (2 * (k + 1))
    rw [ih, show 2 * (k + 1) = 2 * k + 1 + 1 from by omega]
    show _ = mul (mul (npowM mul ident p (2 * k)) p) p
    rw [assoc]

lemma powerAux_npowM {T : Type} (mul : T → T → T) (ident : T)
    (assoc : ∀ x y z, mul (mul x y) z = mul x (mul y z))
    (idl : ∀ x, mul ident x = x) (idr : ∀ x, mul x ident = x) :
    ∀ (bs : List Bool) (p prod : T),
      powerAux mul bs p prod = mul prod (npowM mul ident p (bitsVal bs)) := by
  intro bs
  induction bs with
  | nil =>
    intro p prod
    show prod = mul prod ident
    rw [idr]
  | cons b bs ih =>
    intro p prod
    show powerAux mul bs (mul p p) (if b then mul prod p else prod) = _
    rw [ih, npowM_sq mul ident p assoc]
    cases b
    · show mul prod (npowM mul ident p (2 * bitsVal bs)) =
        mul prod (npowM mul ident p (bitVal false + 2 * bitsVal bs))
      rw [show bitVal false + 2 * bitsVal bs = 2 * bitsVal bs from by simp [bitVal]]
    · show mul (mul prod p) (npowM mul ident p (2 * bitsVal bs)) =
        mul prod (npowM mul ident p (bitVal true + 2 * bitsVal bs))
      rw [assoc, npowM_succ_left mul ident p assoc idl idr,
        show bitVal true + 2 * bitsVal bs = 2 * bitsVal bs + 1 from by simp [bitVal]; omega]

lemma power_npowM {T : Type} (mul : T → T → T) (ident : T)
    (assoc : ∀ x y z, mul (mul x y) z = mul x (mul y z))
    (idl : ∀ x, mul ident x = x) (idr : ∀ x, mul x ident = x)
    (base : T) (e : Nat) :
    power mul base e ident = npowM mul ident base e := by
  unfold power
  by_cases h : e = 0
  · subst h
    rfl
  · rw [if_neg h, powerAux_npowM mul ident assoc idl idr, idl, bitsVal_natBits]

/-! ### The engine as a homomorphic power (specialised carriers)

If `h : Nat → T` satisfies `mul (h j) (h k) = h (j + k)` then the engine,
started at `h 1` with identity `h 0`, computes `h n`.
-/

lemma powerAux_hom {T : Type} (mul : T → T → T) (h : Nat → T)
    (hmul : ∀ j k, mul (h j) (h k) = h (j + k)) :
    ∀ (bs : List Bool) (j k : Nat),
      powerAux mul bs (h j) (h k) = h (k + j * bitsVal bs) := by
  intro bs
  induction bs with
  | nil =>
    intro j k
    show h k = h (k + j * bitsVal [])
    rw [show bitsVal [] = 0 from rfl]
    norm_num
  | cons b bs ih =>
    intro j k
    cases b
    · show powerAux mul bs (mul (h j) (h j)) (h k) = h (k + j * bitsVal (false :: bs))
      rw [hmul, ih (j + j) k]
      congr 1
      show k + (j + j) * bitsVal bs = k + j * (bitVal false + 2 * bitsVal bs)
      simp [bitVal]
      ring
    · show powerAux mul bs (mul (h j) (h j)) (mul (h k) (h j)) = h (k + j * bitsVal (true :: bs))
      rw [hmul, hmul, ih (j + j) (k + j)]
      congr 1
      show k + j + (j + j) * bitsVal bs = k + j * (bitVal true + 2 * bitsVal bs)
      simp [bitVal]
      ring

lemma power_hom {T : Type} (mul : T → T → T) (h : Nat → T)
    (hmul : ∀ j k, mul (h j) (h k) = h (j + k)) (n : Nat) :
    power mul (h 1) n (h 0) = h n := by
  unfold power
  by_cases h0 : n = 0
  · subst h0
    rw [if_pos rfl]
  · rw [if_neg h0, powerAux_hom mul h hmul (natBits n) 1 0, bitsVal_natBits]
    norm_num

/-! ### The bit-processing order of the engine

`sqrFoldStep` is one loop iteration as the spec describes it: the state is
`(p, prod)`; each step unconditionally squares `p` and, when the bit is `1`,
folds the pre-square value of `p` into `prod`.  `powerMSBSpec` processes the
bits most significant first, which is what the claim asserts; the engine
itself processes them least significant first.
-/

def sqrFoldStep {T : Type} (mul : T → T → T) (st : T × T) (b : Bool) : T × T :=
  (mul st.1 st.1, if b then mul st.2 st.1 else st.2)

def powerMSBSpec {T : Type} (mul : T → T → T) (base : T) (exp : Nat) (ident : T) : T :=
  if exp = 0 then ident
  else (List.foldl (sqrFoldStep mul) (base, ident) (natBits exp).reverse).2

lemma powerAux_foldl {T : Type} (mul : T → T → T) :
    ∀ (bs : List Bool) (p prod : T),
      powerAux mul bs p prod = (List.foldl (sqrFoldStep mul) (p, prod) bs).2 := by
  intro bs
  induction bs with
  | nil => intro p prod; rfl
  | cons b bs ih =>
    intro p prod
    show powerAux mul bs (mul p p) (if b then mul prod p else prod) = _
    rw [ih]
    rfl

/-! ### The 2x2 matrix carrier (`mat_exponentiator.rs`) -/

structure Mat2x2 where
  a : Int
  b : Int
  c : Int
  d : Int
deriving DecidableEq

def Mat2x2.identity : Mat2x2 := ⟨1, 0, 0, 1⟩

def Mat2x2.mul (x y : Mat2x2) : Mat2x2 :=
  ⟨x.a * y.a + x.b * y.c, x.a * y.b + x.b * y.d,
   x.c * y.a + x.d * y.c, x.c * y.b + x.d * y.d⟩

def Mat2x2.mulVec (m : Mat2x2) (v : Int × Int) : Int × Int :=
  (m.a * v.1 + m.b * v.2, m.c * v.1 + m.d * v.2)

def fibMat : Mat2x2 := ⟨1, 1, 1, 0⟩

def MatExponentiator.fib (n : Nat) : Int :=
  (Mat2x2.mulVec (power Mat2x2.mul fibMat n Mat2x2.identity) (0, 1)).1

/-! ### The field-extension carrier (`binet_z5.rs`)

A `Z5` value `(a, b)` denotes `a/2 + (b/2)*sqrt 5`.  The in-place right
shift by 1 of rug on `Integer` is an arithmetic shift, i.e. floor division
by 2, modelled by `Int.fdiv _ 2`.
-/

structure Z5 where
  a : Int
  b : Int
deriving DecidableEq

def Z5.mul (x y : Z5) : Z5 :=
  let k1 := y.a * (x.a + x.b)
  let k2 := x.b * (y.a - 5 * y.b)
  let k3 := x.a * (y.b - y.a)
  ⟨(k1 - k2).fdiv 2, (k1 + k3).fdiv 2⟩

def Z5.new (a b : Int) : Z5 := ⟨a, b⟩

def Z5.one : Z5 := Z5.new 2 0

def BinetZ5.fib (n : Nat) : Int :=
  match n with
  | 0 => 0
  | 1 => 1
  | _ => (power Z5.mul (Z5.new 1 1) n Z5.one).b

/-- The definitional product of two `(a + b*sqrt 5)/2` numbers, as the claim
states it: `((a*c + 5*b*d)/2, (a*d + b*c)/2)`, with the same floor halving
as the implementation. -/
def Z5.mulNaive (x y : Z5) : Z5 :=
  ⟨(x.a * y.a + 5 * (x.b * y.b)).fdiv 2, (x.a * y.b + x.b * y.a).fdiv 2⟩

/-! ### The doubling-recurrence loops (`cassini.rs`, `cassini_gmp.rs`)

Both walk the bits of `n` most significant first, skipping the leading one
(`tailBits n`).  `cassiniStep` carries `(i, F(i), F(i+1))`; `gmpStep`
carries `(i, F(i), F(i-1), next_offset)`.
-/

def cassiniStep (st : Nat × Int × Int) (b : Bool) : Nat × Int × Int :=
  let i := st.1
  let f_i := st.2.1
  let f_ip1 := st.2.2
  let f_i_sqr := f_i * f_i
  let f_i_ip1 := f_i * f_ip1
  let f_ip1_sqr := f_ip1 * f_ip1
  let f_2ip1 := f_i_sqr + f_ip1_sqr
  let dbl := f_i_ip1 * 2
  if b then (2 * i + 1, f_2ip1, dbl + f_ip1_sqr)
  else (2 * i, dbl - f_i_sqr, f_2ip1)

def Cassini.fib (n : Nat) : Int :=
  if n < 2 then (n : Int)
  else (List.foldl cassiniStep (1, 1, 1) (tailBits n)).2.1

def gmpStep (st : Nat × Int × Int × Int) (b : Bool) : Nat × Int × Int × Int :=
  let i := st.1
  let f_i := st.2.1
  let f_im1 := st.2.2.1
  let next_offset := st.2.2.2
  let f_i_sqr := f_i * f_i
  let f_im1_sqr := f_im1 * f_im1
  let f_2im1 := f_i_sqr + f_im1_sqr
  let f_2ip1 := f_i_sqr * 4 - f_im1_sqr + next_offset
  let f_2i := f_2ip1 - f_2im1
  if b then (2 * i + 1, f_2ip1, f_2i, -2)
  else (2 * i, f_2i, f_2im1, 2)

def CassiniGMP.fib (n : Nat) : Int :=
  if n < 2 then (n : Int)
  else (List.foldl gmpStep (1, 1, 0, -2) (tailBits n)).2.1

/-! ### Exact halving -/

lemma fdiv_two_double (x : Int) : (2 * x).fdiv 2 = x := by
  rw [Int.fdiv_eq_ediv _ (by norm_num)]
  exact Int.mul_ediv_cancel_left x (by norm_num)

/-! ### The matrix powers are Fibonacci matrices -/

def matM (m : Nat) : Mat2x2 := ⟨fibI (m + 1), fibI m, fibI m, fibI (m + 1) - fibI m⟩

lemma matM_mul (j k : Nat) : Mat2x2.mul (matM j) (matM k) = matM (j + k) := by
  have h1 := fib_addI j k
  have h2 := fib_addI2 j k
  show Mat2x2.mk
      (fibI (j + 1) * fibI (k + 1) + fibI j * fibI k)
      (fibI (j + 1) * fibI k + fibI j * (fibI (k + 1) - fibI k))
      (fibI j * fibI (k + 1) + (fibI (j + 1) - fibI j) * fibI k)
      (fibI j * fibI k + (fibI (j + 1) - fibI j) * (fibI (k + 1) - fibI k)) = _
  unfold matM
  simp only [Mat2x2.mk.injEq]
  refine ⟨?_, ?_, ?_, ?_⟩
  · linear_combination (-1 : Int) * h1
  · linear_combination (-1 : Int) * h2
  · linear_combination (-1 : Int) * h2
  · linear_combination (-1 : Int) * h1 + h2

lemma matM_one : matM 1 = fibMat := by decide

lemma matM_zero : matM 0 = Mat2x2.identity := by decide

lemma power_fibMat (n : Nat) :
    power Mat2x2.mul fibMat n Mat2x2.identity = matM n := by
  rw [← matM_one, ← matM_zero]
  exact power_hom Mat2x2.mul matM matM_mul n

/-! ### The Z5 powers are (Lucas, Fibonacci) pairs -/

def lfZ5 (m : Nat) : Z5 := ⟨lucasI m, fibI m⟩

lemma lfZ5_mul (j k : Nat) : Z5.mul (lfZ5 j) (lfZ5 k) = lfZ5 (j + k) := by
  have h1 := (lucas_add k j).1
  have h2 := (lucas_add k j).2
  have e1 : lucasI k * (lucasI j + fibI j) - fibI j * (lucasI k - 5 * fibI k)
      = 2 * lucasI (j + k) := by linear_combination h1
  have e2 : lucasI k * (lucasI j + fibI j) + lucasI j * (fibI k - lucasI k)
      = 2 * fibI (j + k) := by linear_combination h2
  show Z5.mk ((lucasI k * (lucasI j + fibI j) - fibI j * (lucasI k - 5 * fibI k)).fdiv 2)
      ((lucasI k * (lucasI j + fibI j) + lucasI j * (fibI k - lucasI k)).fdiv 2) = _
  rw [e1, e2, fdiv_two_double, fdiv_two_double]
  rfl

lemma lfZ5_one : lfZ5 1 = Z5.new 1 1 := by decide

lemma lfZ5_zero : lfZ5 0 = Z5.one := by decide

lemma power_z5 (n : Nat) : power Z5.mul (Z5.new 1 1) n Z5.one = lfZ5 n := by
  rw [← lfZ5_one, ← lfZ5_zero]
  exact power_hom Z5.mul lfZ5 lfZ5_mul n

/-! ### The doubling loops maintain Fibonacci state at the walked index -/

lemma foldl_cassiniStep_fst : ∀ (bs : List Bool) (st : Nat × Int × Int),
    (List.foldl cassiniStep st bs).1 = List.foldl idxStep st.1 bs := by
  intro bs
  induction bs with
  | nil => intro st; rfl
  | cons b bs ih =>
    intro st
    rw [List.foldl_cons, List.foldl_cons, ih]
    congr 1
    cases b <;> simp [cassiniStep, idxStep, bitVal]

lemma foldl_gmpStep_fst : ∀ (bs : List Bool) (st : Nat × Int × Int × Int),
    (List.foldl gmpStep st bs).1 = List.foldl idxStep st.1 bs := by
  intro bs
  induction bs with
  | nil => intro st; rfl
  | cons b bs ih =>
    intro st
    rw [List.foldl_cons, List.foldl_cons, ih]
    congr 1
    cases b <;> simp [gmpStep, idxStep, bitVal]

lemma cassiniStep_fib (m : Nat) (b : Bool) :
    cassiniStep (m + 1, fibI (m + 1), fibI (m + 2)) b
      = (idxStep (m + 1) b, fibI (idxStep (m + 1) b), fibI (idxStep (m + 1) b + 1)) := by
  cases b
  · have hidx : idxStep (m + 1) false = 2 * m + 2 := by simp [idxStep, bitVal]; omega
    rw [hidx]
    show (2 * (m + 1),
        fibI (m + 1) * fibI (m + 2) * 2 - fibI (m + 1) * fibI (m + 1),
        fibI (m + 1) * fibI (m + 1) + fibI (m + 2) * fibI (m + 2))
      = (2 * m + 2, fibI (2 * m + 2), fibI (2 * m + 2 + 1))
    rw [show (2 * m + 2 + 1 : Nat) = 2 * m + 3 from by omega]
    simp only [Prod.mk.injEq]
    refine ⟨by omega, ?_, ?_⟩
    · linear_combination (-1 : Int) * fibI_two_mul_add_two m
    · linear_combination (-1 : Int) * fibI_two_mul_add_three m
  · have hidx : idxStep (m + 1) true = 2 * m + 3 := by simp [idxStep, bitVal]; omega
    rw [hidx]
    show (2 * (m + 1) + 1,
        fibI (m + 1) * fibI (m + 1) + fibI (m + 2) * fibI (m + 2),
        fibI (m + 1) * fibI (m + 2) * 2 + fibI (m + 2) * fibI (m + 2))
      = (2 * m + 3, fibI (2 * m + 3), fibI (2 * m + 3 + 1))
    rw [show (2 * m + 3 + 1 : Nat) = 2 * m + 4 from by omega]
    simp only [Prod.mk.injEq]
    refine ⟨by omega, ?_, ?_⟩
    · linear_combination (-1 : Int) * fibI_two_mul_add_three m
    · linear_combination (-1 : Int) * fibI_two_mul_add_four m

lemma cassini_loop_inv : ∀ (bs : List Bool) (m : Nat),
    List.foldl cassiniStep (m + 1, fibI (m + 1), fibI (m + 2)) bs
      = (List.foldl idxStep (m + 1) bs,
         fibI (List.foldl idxStep (m + 1) bs),
         fibI (List.foldl idxStep (m + 1) bs + 1)) := by
  intro bs
  induction bs with
  | nil => intro m; rfl
  | cons b bs ih =>
    intro m
    rw [List.foldl_cons, List.foldl_cons, cassiniStep_fib m b]
    have hidx : idxStep (m + 1) b = (2 * m + 1 + bitVal b) + 1 := by
      cases b <;> simp [idxStep, bitVal] <;> omega
    rw [hidx]
    exact ih (2 * m + 1 + bitVal b)

lemma neg_one_pow_even (m : Nat) : (-1 : Int) ^ (2 * m + 2) = 1 := by
  rw [show 2 * m + 2 = 2 * (m + 1) from by omega, pow_mul]
  norm_num

lemma neg_one_pow_odd (m : Nat) : (-1 : Int) ^ (2 * m + 3) = -1 := by
  rw [show 2 * m + 3 = 2 * (m + 1) + 1 from by omega, pow_succ, pow_mul]
  norm_num

lemma gmpStep_fib (m : Nat) (b : Bool) :
    gmpStep (m + 1, fibI (m + 1), fibI m, 2 * (-1 : Int) ^ (m + 1)) b
      = (idxStep (m + 1) b, fibI (idxStep (m + 1) b),
         fibI (idxStep (m + 1) b - 1), 2 * (-1 : Int) ^ (idxStep (m + 1) b)) := by
  have h2im1 : fibI (m + 1) * fibI (m + 1) + fibI m * fibI m = fibI (2 * m + 1) := by
    linear_combination (-1 : Int) * fibI_two_mul_add_one m
  have h2ip1 : fibI (m + 1) * fibI (m + 1) * 4 - fibI m * fibI m + 2 * (-1 : Int) ^ (m + 1)
      = fibI (2 * m + 3) := by
    linear_combination (-1 : Int) * fibI_gmp_odd m
  have h2i : fibI (2 * m + 3) - fibI (2 * m + 1) = fibI (2 * m + 2) := by
    have h := fibI_add_two (2 * m + 1)
    rw [show 2 * m + 1 + 2 = 2 * m + 3 from by omega] at h
    rw [show 2 * m + 1 + 1 = 2 * m + 2 from by omega] at h
    linear_combination h
  cases b
  · have hidx : idxStep (m + 1) false = 2 * m + 2 := by simp [idxStep, bitVal]; omega
    rw [hidx]
    show (2 * (m + 1),
        (fibI (m + 1) * fibI (m + 1) * 4 - fibI m * fibI m + 2 * (-1 : Int) ^ (m + 1))
          - (fibI (m + 1) * fibI (m + 1) + fibI m * fibI m),
        fibI (m + 1) * fibI (m + 1) + fibI m * fibI m,
        (2 : Int))
      = (2 * m + 2, fibI (2 * m + 2), fibI (2 * m + 2 - 1), 2 * (-1 : Int) ^ (2 * m + 2))
    rw [show (2 * m + 2 - 1 : Nat) = 2 * m + 1 from by omega, neg_one_pow_even]
    simp only [Prod.mk.injEq]
    refine ⟨by omega, ?_, h2im1, by norm_num⟩
    rw [h2im1, h2ip1, h2i]
  · have hidx : idxStep (m + 1) true = 2 * m + 3 := by simp [idxStep, bitVal]; omega
    rw [hidx]
    show (2 * (m + 1) + 1,
        fibI (m + 1) * fibI (m + 1) * 4 - fibI m * fibI m + 2 * (-1 : Int) ^ (m + 1),
        (fibI (m + 1) * fibI (m + 1) * 4 - fibI m * fibI m + 2 * (-1 : Int) ^ (m + 1))
          - (fibI (m + 1) * fibI (m + 1) + fibI m * fibI m),
        (-2 : Int))
      = (2 * m + 3, fibI (2 * m + 3), fibI (2 * m + 3 - 1), 2 * (-1 : Int) ^ (2 * m + 3))
    rw [show (2 * m + 3 - 1 : Nat) = 2 * m + 2 from by omega, neg_one_pow_odd]
    simp only [Prod.mk.injEq]
    refine ⟨by omega, h2ip1, ?_, by norm_num⟩
    rw [h2im1, h2ip1, h2i]

lemma gmp_loop_inv : ∀ (bs : List Bool) (m : Nat),
    List.foldl gmpStep (m + 1, fibI (m + 1), fibI m, 2 * (-1 : Int) ^ (m + 1)) bs
      = (List.foldl idxStep (m + 1) bs,
         fibI (List.foldl idxStep (m + 1) bs),
         fibI (List.foldl idxStep (m + 1) bs - 1),
         2 * (-1 : Int) ^ (List.foldl idxStep (m + 1) bs)) := by
  intro bs
  induction bs with
  | nil =>
    intro m
    show _ = ((m + 1 : Nat), fibI (m + 1), fibI (m + 1 - 1), 2 * (-1 : Int) ^ (m + 1))
    rw [show (m + 1 - 1 : Nat) = m from by omega]
    rfl
  | cons b bs ih =>
    intro m
    rw [List.foldl_cons, List.foldl_cons, gmpStep_fib m b]
    have hidx : idxStep (m + 1) b = (2 * m + 1 + bitVal b) + 1 := by
      cases b <;> simp [idxStep, bitVal] <;> omega
    rw [hidx]
    have e : (2 * m + 1 + bitVal b) + 1 - 1 = 2 * m + 1 + bitVal b := by omega
    rw [e]
    exact ih (2 * m + 1 + bitVal b)

/-! ### Parity of reachable Z5 values -/

lemma lucas_add_fib_even : ∀ m, ∃ t, lucas m + fibSpec m = 2 * t := by
  have key : ∀ m, (∃ t, lucas m + fibSpec m = 2 * t)
      ∧ (∃ t, lucas (m + 1) + fibSpec (m + 1) = 2 * t) := by
    intro m
    induction m with
    | zero => exact ⟨⟨1, rfl⟩, ⟨1, rfl⟩⟩
    | succ k ih =>
      obtain ⟨⟨t1, h1⟩, ⟨t2, h2⟩⟩ := ih
      refine ⟨⟨t2, h2⟩, ⟨t1 + t2, ?_⟩⟩
      show lucas k + lucas (k + 1) + (fibSpec k + fibSpec (k + 1)) = 2 * (t1 + t2)
      omega
  exact fun m => (key m).1

lemma lfZ5_parity (m : Nat) : lucasI m % 2 = fibI m % 2 := by
  obtain ⟨t, ht⟩ := lucas_add_fib_even m
  have htI : lucasI m + fibI m = 2 * (t : Int) := by
    unfold lucasI fibI
    exact_mod_cast congrArg (fun x : Nat => (x : Int)) ht
  omega

/-- Values reachable by the exponentiation engine from the starting element
`(1,1)` and the identity `(2,0)` under the implemented multiplication. -/
inductive ZReach : Z5 → Prop where
  | start : ZReach (Z5.new 1 1)
  | ident : ZReach Z5.one
  | mul (x y : Z5) : ZReach x → ZReach y → ZReach (Z5.mul x y)

lemma zreach_lf (x : Z5) (h : ZReach x) : ∃ m, x = lfZ5 m := by
  induction h with
  | start => exact ⟨1, lfZ5_one.symm⟩
  | ident => exact ⟨0, lfZ5_zero.symm⟩
  | mul x y hx hy ihx ihy =>
    obtain ⟨j, hj⟩ := ihx
    obtain ⟨k, hk⟩ := ihy
    exact ⟨j + k, by rw [hj, hk, lfZ5_mul]⟩

/-! ## Claim theorems -/

/-- Claim C1: for every n, each in-scope algorithm (MatExponentiator, BinetZ5,
Cassini, CassiniGMP) returns exactly the n-th Fibonacci number F(n) under the
convention F(0)=0, F(1)=1, F(n)=F(n-1)+F(n-2); in particular this holds for
every unsigned 64-bit n. -/
theorem C1_algorithms_compute_fib (n : Nat) :
    MatExponentiator.fib n = fibI n ∧ BinetZ5.fib n = fibI n
    ∧ Cassini.fib n = fibI n ∧ CassiniGMP.fib n = fibI n := by
  have hmat : MatExponentiator.fib n = fibI n := by
    show (Mat2x2.mulVec (power Mat2x2.mul fibMat n Mat2x2.identity) (0, 1)).1 = fibI n
    rw [power_fibMat]
    show fibI (n + 1) * 0 + fibI n * 1 = fibI n
    ring
  have hz5 : BinetZ5.fib n = fibI n := by
    match n with
    | 0 => rfl
    | 1 => rfl
    | m + 2 =>
      show (power Z5.mul (Z5.new 1 1) (m + 2) Z5.one).b = fibI (m + 2)
      rw [power_z5]
      rfl
  have hcas : Cassini.fib n = fibI n := by
    unfold Cassini.fib
    by_cases h : n < 2
    · rw [if_pos h]
      interval_cases n <;> rfl
    · rw [if_neg h]
      have key : List.foldl cassiniStep (1, fibI 1, fibI 2) (tailBits n)
          = (List.foldl idxStep 1 (tailBits n),
             fibI (List.foldl idxStep 1 (tailBits n)),
             fibI (List.foldl idxStep 1 (tailBits n) + 1)) := cassini_loop_inv (tailBits n) 0
      rw [tailBits_foldl n (by omega)] at key
      show (List.foldl cassiniStep (1, fibI 1, fibI 2) (tailBits n)).2.1 = fibI n
      rw [key]
  have hgmp : CassiniGMP.fib n = fibI n := by
    unfold CassiniGMP.fib
    by_cases h : n < 2
    · rw [if_pos h]
      interval_cases n <;> rfl
    · rw [if_neg h]
      have key : List.foldl gmpStep (1, fibI 1, fibI 0, 2 * (-1 : Int) ^ 1) (tailBits n)
          = (List.foldl idxStep 1 (tailBits n),
             fibI (List.foldl idxStep 1 (tailBits n)),
             fibI (List.foldl idxStep 1 (tailBits n) - 1),
             2 * (-1 : Int) ^ (List.foldl idxStep 1 (tailBits n))) := gmp_loop_inv (tailBits n) 0
      rw [tailBits_foldl n (by omega)] at key
      show (List.foldl gmpStep (1, fibI 1, fibI 0, 2 * (-1 : Int) ^ 1) (tailBits n)).2.1 = fibI n
      rw [key]
  exact ⟨hmat, hz5, hcas, hgmp⟩

/-- Claim C2: for any carrier type with an associative combination operation
and a two-sided identity, `power base e ident` equals base combined with
itself e times (base^e) for every e ≥ 0 including 0 and 1, and for e = 0 it
returns the identity for every base without inspecting it. -/
theorem C2_power_monoid_correct {T : Type} (mul : T → T → T) (ident : T)
    (assoc : ∀ x y z, mul (mul x y) z = mul x (mul y z))
    (idl : ∀ x, mul ident x = x) (idr : ∀ x, mul x ident = x) :
    (∀ (base : T) (e : Nat), power mul base e ident = npowM mul ident base e)
    ∧ (∀ base : T, power mul base 0 ident = ident) :=
  ⟨fun base e => power_npowM mul ident assoc idl idr base e, fun _ => rfl⟩

theorem C2_power_monoid_correct_witness :
    power Nat.mul 3 6 1 = npowM Nat.mul 1 3 6 ∧ power Nat.mul 7 0 1 = 1 := by
  have h := C2_power_monoid_correct Nat.mul 1
    (fun a b c => Nat.mul_assoc a b c) Nat.one_mul Nat.mul_one
  exact ⟨h.1 3 6, h.2 7⟩

/-- Claim C3 counterexample: at n = 2 the pair (1,1)^2 computed by the engine
with identity (2,0) is (3,1); its second component is 1 = F(2), not
2*F(2) = 2 as the claim states. -/
theorem C3_second_component_counterexample :
    (power Z5.mul (Z5.new 1 1) 2 Z5.one).b ≠ 2 * fibI 2 := by decide

/-- Claim C3 (amended): for every n ≥ 1, raising the field-extension element
(1,1) to the n-th power via the exponentiation engine with identity (2,0)
yields a pair whose second component equals F(n) exactly. -/
theorem C3_z5_power_second_component (n : Nat) (h : 1 ≤ n) :
    (power Z5.mul (Z5.new 1 1) n Z5.one).b = fibI n := by
  rw [power_z5]
  rfl

theorem C3_z5_power_second_component_witness :
    (power Z5.mul (Z5.new 1 1) 7 Z5.one).b = fibI 7 :=
  C3_z5_power_second_component 7 (by norm_num)

/-- Claim C4: for Z5 pairs (a,b) and (c,d) with a congruent to b and c
congruent to d mod 2, the implemented 3-multiplication formula (with its two
right shifts) equals the definitional product, and both halved quantities
a*c + 5*b*d and a*d + b*c are recovered exactly with no remainder. -/
theorem C4_karatsuba_equals_naive (a b c d : Int)
    (hab : a % 2 = b % 2) (hcd : c % 2 = d % 2) :
    Z5.mul (Z5.new a b) (Z5.new c d) = Z5.mulNaive (Z5.new a b) (Z5.new c d)
    ∧ 2 * (Z5.mul (Z5.new a b) (Z5.new c d)).a = a * c + 5 * (b * d)
    ∧ 2 * (Z5.mul (Z5.new a b) (Z5.new c d)).b = a * d + b * c := by
  obtain ⟨s, rfl⟩ : ∃ s, b = a + 2 * s := ⟨(b - a) / 2, by omega⟩
  obtain ⟨t, rfl⟩ : ∃ t, d = c + 2 * t := ⟨(d - c) / 2, by omega⟩
  have e1 : c * (a + (a + 2 * s)) - (a + 2 * s) * (c - 5 * (c + 2 * t))
      = 2 * (3 * a * c + 5 * a * t + 5 * s * c + 10 * s * t) := by ring
  have e2 : c * (a + (a + 2 * s)) + a * ((c + 2 * t) - c)
      = 2 * (a * c + a * t + s * c) := by ring
  have f1 : a * c + 5 * ((a + 2 * s) * (c + 2 * t))
      = 2 * (3 * a * c + 5 * a * t + 5 * s * c + 10 * s * t) := by ring
  have f2 : a * (c + 2 * t) + (a + 2 * s) * c = 2 * (a * c + a * t + s * c) := by ring
  refine ⟨?_, ?_, ?_⟩
  · show Z5.mk ((c * (a + (a + 2 * s)) - (a + 2 * s) * (c - 5 * (c + 2 * t))).fdiv 2)
        ((c * (a + (a + 2 * s)) + a * ((c + 2 * t) - c)).fdiv 2)
      = Z5.mk ((a * c + 5 * ((a + 2 * s) * (c + 2 * t))).fdiv 2)
        ((a * (c + 2 * t) + (a + 2 * s) * c).fdiv 2)
    rw [e1, f1, e2, f2]
  · show 2 * ((c * (a + (a + 2 * s)) - (a + 2 * s) * (c - 5 * (c + 2 * t))).fdiv 2)
      = a * c + 5 * ((a + 2 * s) * (c + 2 * t))
    rw [e1, fdiv_two_double]
    ring
  · show 2 * ((c * (a + (a + 2 * s)) + a * ((c + 2 * t) - c)).fdiv 2)
      = a * (c + 2 * t) + (a + 2 * s) * c
    rw [e2, fdiv_two_double]
    ring

theorem C4_karatsuba_equals_naive_witness :
    Z5.mul (Z5.new 1 3) (Z5.new 2 4) = Z5.mulNaive (Z5.new 1 3) (Z5.new 2 4)
    ∧ 2 * (Z5.mul (Z5.new 1 3) (Z5.new 2 4)).a = 1 * 2 + 5 * (3 * 4)
    ∧ 2 * (Z5.mul (Z5.new 1 3) (Z5.new 2 4)).b = 1 * 4 + 3 * 2 :=
  C4_karatsuba_equals_naive 1 3 2 4 (by decide) (by decide)

/-- Claim C5: for every n ≥ 1 the n-th power of the Fibonacci matrix (1,1;1,0)
under the implemented 2x2 matrix multiplication equals the matrix
(F(n+1), F(n); F(n), F(n-1)). -/
theorem C5_matrix_power_invariant (n : Nat) (h : 1 ≤ n) :
    power Mat2x2.mul fibMat n Mat2x2.identity
      = ⟨fibI (n + 1), fibI n, fibI n, fibI (n - 1)⟩ := by
  obtain ⟨m, rfl⟩ : ∃ m, n = m + 1 := ⟨n - 1, by omega⟩
  rw [power_fibMat]
  unfold matM
  rw [show (m + 1 - 1 : Nat) = m from rfl]
  simp only [Mat2x2.mk.injEq]
  refine ⟨trivial, trivial, trivial, ?_⟩
  have h2 := fibI_add_two m
  rw [show m + 1 + 1 = m + 2 from by omega]
  linear_combination h2

theorem C5_matrix_power_invariant_witness :
    power Mat2x2.mul fibMat 5 Mat2x2.identity = ⟨fibI 6, fibI 5, fibI 5, fibI 4⟩ :=
  C5_matrix_power_invariant 5 (by norm_num)

/-- Claim C6: in both doubling-recurrence loops, for every n ≥ 2 the internal
index equals n exactly when the walk over the binary digits of n terminates, so the
terminal assertion i == n never fails for a valid input. -/
theorem C6_terminal_index_eq (n : Nat) (h : 2 ≤ n) :
    (List.foldl cassiniStep (1, 1, 1) (tailBits n)).1 = n
    ∧ (List.foldl gmpStep (1, 1, 0, -2) (tailBits n)).1 = n := by
  constructor
  · rw [foldl_cassiniStep_fst]
    exact tailBits_foldl n (by omega)
  · rw [foldl_gmpStep_fst]
    exact tailBits_foldl n (by omega)

theorem C6_terminal_index_eq_witness :
    (List.foldl cassiniStep (1, 1, 1) (tailBits 12)).1 = 12
    ∧ (List.foldl gmpStep (1, 1, 0, -2) (tailBits 12)).1 = 12 :=
  C6_terminal_index_eq 12 (by norm_num)

/-- Claim C7: in the GMP-style loop, a state satisfying f_i = F(i),
f_im1 = F(i-1), next_offset = 2*(-1)^i with i ≥ 1 is mapped by one iteration,
on either branch, to a state satisfying the same invariant at the new index
2*i + bit; moreover the intermediate values of the iteration are exactly
F(2i+1) = 4*F(i)^2 - F(i-1)^2 + 2*(-1)^i, F(2i-1) = F(i)^2 + F(i-1)^2 and
F(2i) = F(2i+1) - F(2i-1). -/
theorem C7_gmp_invariant_preserved (st : Nat × Int × Int × Int) (b : Bool)
    (h1 : 1 ≤ st.1) (h2 : st.2.1 = fibI st.1) (h3 : st.2.2.1 = fibI (st.1 - 1))
    (h4 : st.2.2.2 = 2 * (-1 : Int) ^ st.1) :
    ((gmpStep st b).1 = 2 * st.1 + bitVal b
    ∧ (gmpStep st b).2.1 = fibI ((gmpStep st b).1)
    ∧ (gmpStep st b).2.2.1 = fibI ((gmpStep st b).1 - 1)
    ∧ (gmpStep st b).2.2.2 = 2 * (-1 : Int) ^ ((gmpStep st b).1))
    ∧ (st.2.1 * st.2.1 * 4 - st.2.2.1 * st.2.2.1 + st.2.2.2 = fibI (2 * st.1 + 1)
    ∧ st.2.1 * st.2.1 + st.2.2.1 * st.2.2.1 = fibI (2 * st.1 - 1)
    ∧ fibI (2 * st.1 + 1) - fibI (2 * st.1 - 1) = fibI (2 * st.1)) := by
  obtain ⟨i, f, fm, off⟩ := st
  simp only at h1 h2 h3 h4 ⊢
  obtain ⟨m, rfl⟩ : ∃ m, i = m + 1 := ⟨i - 1, by omega⟩
  rw [show (m + 1 - 1 : Nat) = m from rfl] at h3
  subst h2
  subst h3
  subst h4
  constructor
  · rw [gmpStep_fib m b]
    have hidx : idxStep (m + 1) b = 2 * (m + 1) + bitVal b := rfl
    exact ⟨hidx, rfl, rfl, rfl⟩
  · rw [show 2 * (m + 1) + 1 = 2 * m + 3 from by omega,
      show 2 * (m + 1) - 1 = 2 * m + 1 from by omega,
      show 2 * (m + 1) = 2 * m + 2 from by omega]
    have ha : fibI (m + 1) * fibI (m + 1) * 4 - fibI m * fibI m + 2 * (-1 : Int) ^ (m + 1)
        = fibI (2 * m + 3) := by
      linear_combination (-1 : Int) * fibI_gmp_odd m
    have hb : fibI (m + 1) * fibI (m + 1) + fibI m * fibI m = fibI (2 * m + 1) := by
      linear_combination (-1 : Int) * fibI_two_mul_add_one m
    have hc : fibI (2 * m + 3) - fibI (2 * m + 1) = fibI (2 * m + 2) := by
      have h := fibI_add_two (2 * m + 1)
      rw [show 2 * m + 1 + 2 = 2 * m + 3 from by omega] at h
      rw [show 2 * m + 1 + 1 = 2 * m + 2 from by omega] at h
      linear_combination h
    exact ⟨ha, hb, hc⟩

theorem C7_gmp_invariant_preserved_witness :
    (((gmpStep ((1 : Nat), (1 : Int), (0 : Int), (-2 : Int)) true).1 = 2 * 1 + bitVal true
    ∧ (gmpStep ((1 : Nat), (1 : Int), (0 : Int), (-2 : Int)) true).2.1
        = fibI ((gmpStep ((1 : Nat), (1 : Int), (0 : Int), (-2 : Int)) true).1)
    ∧ (gmpStep ((1 : Nat), (1 : Int), (0 : Int), (-2 : Int)) true).2.2.1
        = fibI ((gmpStep ((1 : Nat), (1 : Int), (0 : Int), (-2 : Int)) true).1 - 1)
    ∧ (gmpStep ((1 : Nat), (1 : Int), (0 : Int), (-2 : Int)) true).2.2.2
        = 2 * (-1 : Int) ^ ((gmpStep ((1 : Nat), (1 : Int), (0 : Int), (-2 : Int)) true).1))
    ∧ ((1 : Int) * 1 * 4 - 0 * 0 + (-2) = fibI (2 * 1 + 1)
    ∧ (1 : Int) * 1 + 0 * 0 = fibI (2 * 1 - 1)
    ∧ fibI (2 * 1 + 1) - fibI (2 * 1 - 1) = fibI (2 * 1))) :=
  C7_gmp_invariant_preserved (1, 1, 0, -2) true (by norm_num) (by decide) (by decide) (by decide)

/-- Claim C8 counterexample: with the natural-number carrier, base 2 and
exponent 2, processing the binary digits of the exponent most significant first
with the described step (square p, fold the pre-square p into prod on a 1
bit) yields 2, while the implemented routine yields 4 = 2^2, so the routine
does not examine the bits from most-significant to least-significant. -/
theorem C8_msb_counterexample :
    power Nat.mul 2 2 1 ≠ powerMSBSpec Nat.mul 2 2 1
    ∧ power Nat.mul 2 2 1 = 4 ∧ powerMSBSpec Nat.mul 2 2 1 = 2 := by
  refine ⟨by decide, by decide, by decide⟩

/-- Claim C8 (amended): for every exponent ≥ 1 the routine examines the
binary representation of the exponent from least-significant bit to
most-significant bit, keeping a squaring accumulator p initialized to base
and a running product prod initialized to identity; each step unconditionally
squares p and, whenever the bit is 1, folds the pre-square value of p into prod
via the combination operation. -/
theorem C8_power_bit_order {T : Type} (mul : T → T → T) (base : T) (e : Nat)
    (ident : T) (h : 1 ≤ e) :
    power mul base e ident
      = (List.foldl (sqrFoldStep mul) (base, ident) (natBits e)).2 := by
  unfold power
  rw [if_neg (by omega), powerAux_foldl]

theorem C8_power_bit_order_witness :
    power Nat.mul 2 6 1 = (List.foldl (sqrFoldStep Nat.mul) (2, 1) (natBits 6)).2 :=
  C8_power_bit_order Nat.mul 2 6 1 (by norm_num)

/-- Claim C10: every Z5 value reachable by the engine from the starting
element (1,1) and the identity (2,0) via the implemented multiplication has
components of equal parity (a congruent to b mod 2), and in any product of two
reachable values the intermediates k1-k2 and k1+k3 are even, so the two right
shifts by 1 are exact halvings with no truncated remainder. -/
theorem C10_reachable_parity_exact_halving (x y : Z5)
    (hx : ZReach x) (hy : ZReach y) :
    x.a % 2 = x.b % 2
    ∧ (2 ∣ (y.a * (x.a + x.b) - x.b * (y.a - 5 * y.b)))
    ∧ (2 ∣ (y.a * (x.a + x.b) + x.a * (y.b - y.a)))
    ∧ 2 * (Z5.mul x y).a = y.a * (x.a + x.b) - x.b * (y.a - 5 * y.b)
    ∧ 2 * (Z5.mul x y).b = y.a * (x.a + x.b) + x.a * (y.b - y.a) := by
  obtain ⟨j, rfl⟩ := zreach_lf x hx
  obtain ⟨k, rfl⟩ := zreach_lf y hy
  have e1 : lucasI k * (lucasI j + fibI j) - fibI j * (lucasI k - 5 * fibI k)
      = 2 * lucasI (j + k) := by linear_combination (lucas_add k j).1
  have e2 : lucasI k * (lucasI j + fibI j) + lucasI j * (fibI k - lucasI k)
      = 2 * fibI (j + k) := by linear_combination (lucas_add k j).2
  refine ⟨lfZ5_parity j, ?_, ?_, ?_, ?_⟩
  · exact ⟨lucasI (j + k), e1⟩
  · exact ⟨fibI (j + k), e2⟩
  · rw [lfZ5_mul]
    exact e1.symm
  · rw [lfZ5_mul]
    exact e2.symm

theorem C10_reachable_parity_exact_halving_witness :
    ((Z5.new 1 1).a % 2 = (Z5.new 1 1).b % 2
    ∧ (2 ∣ (Z5.one.a * ((Z5.new 1 1).a + (Z5.new 1 1).b)
        - (Z5.new 1 1).b * (Z5.one.a - 5 * Z5.one.b)))
    ∧ (2 ∣ (Z5.one.a * ((Z5.new 1 1).a + (Z5.new 1 1).b)
        + (Z5.new 1 1).a * (Z5.one.b - Z5.one.a)))
    ∧ 2 * (Z5.mul (Z5.new 1 1) Z5.one).a
        = Z5.one.a * ((Z5.new 1 1).a + (Z5.new 1 1).b)
          - (Z5.new 1 1).b * (Z5.one.a - 5 * Z5.one.b)
    ∧ 2 * (Z5.mul (Z5.new 1 1) Z5.one).b
        = Z5.one.a * ((Z5.new 1 1).a + (Z5.new 1 1).b)
          + (Z5.new 1 1).a * (Z5.one.b - Z5.one.a)) :=
  C10_reachable_parity_exact_halving (Z5.new 1 1) Z5.one ZReach.start ZReach.ident
